import Mathlib

/-!
Verification of the ppycron Unix crontab backend (`ppycron/src/unix.py`).

The external crontab is modelled as `Option (List Char)`: `none` means the
listing command `crontab -l` exits non-zero (no table installed for the user),
`some content` means the listing succeeds and prints `content`.  Python strings
are modelled as `List Char` (`PyStr`); Python's `str.split`, `str.strip`,
`str.replace`, `str.startswith` and `"sep".join` are embedded below as
executable functions on `List Char`.  Writing the table (`crontab <tmpfile>`)
is assumed to succeed, as the code does (`check=True` with no handler), so each
backend operation is a pure function from the previous table state to the next
one together with its return value; operations that can raise return `Except`.
-/

namespace Ppycron

/-- Python strings are modelled as lists of characters. -/
abbrev PyStr := List Char

/-- State of the external crontab: `none` when `crontab -l` fails (no table
installed), `some content` when listing succeeds with output `content`. -/
abbrev CrontabState := Option PyStr

/-- Python exceptions raised by the backend (`raise ValueError(...)` in
`unix.py`). -/
inductive PyErr where
  | valueError (msg : String)
deriving DecidableEq

deriving instance DecidableEq for Except

/-- Characters Python's `str.split()` / `str.strip()` treat as whitespace:
space, tab, newline, vertical tab, form feed, carriage return. -/
def isPySpace (c : Char) : Bool :=
  c == ' ' || c == '\t' || c == '\n' || c == '\r' || c.toNat == 11 || c.toNat == 12

/-- Splitting a list at every character satisfying `p`, keeping empty pieces:
`splitBy p s` always returns at least one piece and mirrors Python's
`s.split(sep)` when `p` holds exactly at `sep`. -/
def splitBy (p : Char → Bool) : PyStr → List PyStr
  | [] => [[]]
  | c :: cs =>
    match splitBy p cs with
    | [] => [[]]
    | piece :: rest => if p c then [] :: piece :: rest else (c :: piece) :: rest

/-- Python's `sep.join(pieces)` for a one-character separator. -/
def joinWith (sep : Char) : List PyStr → PyStr
  | [] => []
  | [t] => t
  | t :: ts => t ++ sep :: joinWith sep ts

/-- Python's `s.split("\n")`, as used on the decoded `crontab -l` output. -/
def splitNL (s : PyStr) : List PyStr := splitBy (fun c => c == '\n') s

/-- Python's no-argument `s.split()`: whitespace-separated tokens, no empties. -/
def pySplit (s : PyStr) : List PyStr :=
  (splitBy isPySpace s).filter (fun t => decide (t ≠ []))

/-- Python's `s.strip()`: drop leading and trailing whitespace. -/
def pyStrip (s : PyStr) : PyStr :=
  ((s.dropWhile isPySpace).reverse.dropWhile isPySpace).reverse

/-- Python's `s.startswith("#")`. -/
def startsWithHash : PyStr → Bool
  | [] => false
  | c :: _ => c == '#'

/-- The line-skipping test used verbatim in `get_all`, `edit` and `delete`:
`line.strip() == "" or line.startswith("#")` (unix.py lines 47, 73, 110). -/
def isCommentOrBlank (line : PyStr) : Bool :=
  decide (pyStrip line = []) || startsWithHash line

/-- The interval parsed from a data line: `" ".join(line.split()[:5])`
(unix.py lines 50, 77). -/
def lineInterval (line : PyStr) : PyStr := joinWith ' ' ((pySplit line).take 5)

/-- The command parsed from a data line: `" ".join(line.split()[5:]).strip()`
(unix.py lines 51, 78, 114). -/
def lineCommand (line : PyStr) : PyStr := pyStrip (joinWith ' ' ((pySplit line).drop 5))

/-- Modelled from the spec: the `Cron` entry value type lives in
`ppycron/src/base.py`, which is not part of the excerpt.  Per §3 it is "a
simple value type" carrying `command` and `interval`; the process-local
synthetic `id` is omitted here since no verified claim mentions it and it is
regenerated on every parse. -/
structure Cron where
  command : PyStr
  interval : PyStr
deriving DecidableEq

/-- Modelled from the spec: `str(cron)` renders "the literal line format
(`interval` + space + `command`)" (§6), as appended by `add`. -/
def cronStr (c : Cron) : PyStr := c.interval ++ ' ' :: c.command

/-- Modelled from the spec (§4.2): `is_valid_cron_format` lives in the missing
`ppycron/src/base.py`.  Nonempty all-digit token. -/
def isNatStr (s : PyStr) : Bool := decide (s ≠ []) && s.all Char.isDigit

/-- Numeric value of a digit token. -/
def strVal (s : PyStr) : Nat := s.foldl (fun n c => n * 10 + (c.toNat - 48)) 0

/-- Modelled from the spec (§4.2): a range token `a-b` with `a ≤ b`, both
within the field bounds. -/
def validRangeTok (lo hi : Nat) (b : PyStr) : Bool :=
  match splitBy (fun c => c == '-') b with
  | [x, y] =>
    isNatStr x && isNatStr y && decide (lo ≤ strVal x) && decide (strVal x ≤ strVal y)
      && decide (strVal y ≤ hi)
  | _ => false

/-- Modelled from the spec (§4.2): a base token is `*`, an in-bounds integer,
or an in-bounds range `a-b`. -/
def validBase (lo hi : Nat) (b : PyStr) : Bool :=
  decide (b = ['*']) || (isNatStr b && decide (lo ≤ strVal b) && decide (strVal b ≤ hi))
    || validRangeTok lo hi b

/-- Modelled from the spec (§4.2): an atom is a base, or a step `*/n` or
`a-b/n` with `n ≥ 1` (the spec leaves the step bound open; positivity is the
minimal reading). -/
def validAtom (lo hi : Nat) (a : PyStr) : Bool :=
  match splitBy (fun c => c == '/') a with
  | [b] => validBase lo hi b
  | [b, n] => (decide (b = ['*']) || validRangeTok lo hi b) && isNatStr n && decide (1 ≤ strVal n)
  | _ => false

/-- Modelled from the spec (§4.2): a field is a comma-separated list of atoms,
each independently validated (an empty string yields the single empty atom,
which is invalid). -/
def validField (lo hi : Nat) (f : PyStr) : Bool :=
  (splitBy (fun c => c == ',') f).all (validAtom lo hi)

/-- Modelled from the spec (§4.2): `is_valid_cron_format(expression)` from the
missing `ppycron/src/base.py` — exactly 5 whitespace-separated fields with
bounds minute 0–59, hour 0–23, day-of-month 1–31, month 1–12, day-of-week 0–6.
Pure and total by construction. -/
def is_valid_cron_format (s : PyStr) : Bool :=
  match pySplit s with
  | [m, h, dom, mon, dow] =>
    validField 0 59 m && validField 0 23 h && validField 1 31 dom && validField 1 12 mon
      && validField 0 6 dow
  | _ => false

/-- Embeds `UnixInterface.__init__` (unix.py lines 15–20): whatever the prior
table state, the constructor installs a table holding only the header comment. -/
def initCrontab (_st : CrontabState) : CrontabState :=
  some (String.toList "# Created automatically by Pycron =)\n")

/-- Embeds `UnixInterface.add` (unix.py lines 22–37): build the entry, read the
current table (empty string if the listing fails), append `str(cron) + "\n"`,
install the result.  No code path raises. -/
def add (command interval : PyStr) (st : CrontabState) : Cron × CrontabState :=
  let cron := Cron.mk command interval
  let current :=
    match st with
    | none => []
    | some c => c
  (cron, some (current ++ cronStr cron ++ ['\n']))

/-- Embeds the parsing loop of `UnixInterface.get_all` (unix.py lines 45–55):
skip blank and `#` lines, build a `Cron` from the parsed interval and command
when the parsed command is nonempty. -/
def getAllLoop : List PyStr → List Cron
  | [] => []
  | line :: rest =>
    if isCommentOrBlank line then getAllLoop rest
    else if lineCommand line ≠ [] then
      Cron.mk (lineCommand line) (lineInterval line) :: getAllLoop rest
    else getAllLoop rest

/-- Embeds `UnixInterface.get_all` (unix.py lines 39–56): a failing listing
yields `[]`, otherwise the output is split on newlines and parsed. -/
def get_all (st : CrontabState) : List Cron :=
  match st with
  | none => []
  | some content => getAllLoop (splitNL content)

/-- Scanner for Python's `s.replace(old, new)` with nonempty `old`: leftmost
non-overlapping occurrences, replaced left to right.  The `fuel` argument only
makes the recursion structural: every step consumes at least one character, so
with `fuel = s.length` the zero-fuel branch is never reached. -/
def pyReplaceGo (pat rep : PyStr) : Nat → PyStr → PyStr
  | 0, s => s
  | fuel + 1, s =>
    match s with
    | [] => []
    | c :: cs =>
      if pat.isPrefixOf (c :: cs) then
        rep ++ pyReplaceGo pat rep fuel (cs.drop (pat.length - 1))
      else
        c :: pyReplaceGo pat rep fuel cs

/-- Python's `s.replace(old, new)`; for an empty `old` Python inserts `new`
before every character and at the end (unreachable in `edit`, where both
patterns are nonempty). -/
def pyReplace (s pat rep : PyStr) : PyStr :=
  if pat = [] then rep ++ (s.map (fun c => c :: rep)).flatten
  else pyReplaceGo pat rep s.length s

/-- The match test of the `edit`/`delete` loops on a single line: the line is a
data line and its parsed command equals the requested command exactly
(unix.py lines 80, 115). -/
def editMatches (cronCmd line : PyStr) : Bool :=
  !isCommentOrBlank line && decide (lineCommand line = cronCmd)

/-- The in-place rewriting applied by `edit` to a matching line (unix.py lines
81–84): substring-replace the parsed interval by the new interval when one was
passed and is truthy, then substring-replace the parsed command (computed from
the original line) by the new command when it is truthy. -/
def editApply (newCommand : PyStr) (kwInterval : Option PyStr) (line : PyStr) : PyStr :=
  let line1 :=
    match kwInterval with
    | some ni => if ni ≠ [] then pyReplace line (lineInterval line) ni else line
    | none => line
  if newCommand ≠ [] then pyReplace line1 (lineCommand line) newCommand else line1

/-- One iteration of the `edit` loop body (unix.py lines 71–87): blank/comment
lines pass through, a matching data line is rewritten and sets `modified`. -/
def editLine (cronCmd newCommand : PyStr) (kwInterval : Option PyStr) (line : PyStr) :
    PyStr × Bool :=
  if isCommentOrBlank line then (line, false)
  else if lineCommand line = cronCmd then (editApply newCommand kwInterval line, true)
  else (line, false)

/-- Embeds `UnixInterface.edit` (unix.py lines 58–97).  `kwCommand`/`kwInterval`
model `kwargs.get("command", cron_command)` / `kwargs.get("interval")`: `none`
means the keyword was absent (passing `None` explicitly behaves identically,
since `if new_interval:` is falsy and replacing the command by itself is the
identity).  The table is rewritten, and `True` returned, only when some line
matched; a failed listing returns `False`. -/
def edit (cronCmd : PyStr) (kwCommand kwInterval : Option PyStr) (st : CrontabState) :
    Except PyErr (Bool × CrontabState) :=
  if cronCmd = [] then
    .error (.valueError "Cron command is required to edit an entry.")
  else
    match st with
    | none => .ok (false, none)
    | some content =>
      let newCommand := kwCommand.getD cronCmd
      let processed := (splitNL content).map (editLine cronCmd newCommand kwInterval)
      if processed.any (fun r => r.2) then
        .ok (true, some (joinWith '\n' (processed.map (fun r => r.1)) ++ ['\n']))
      else
        .ok (false, some content)

/-- The `delete` loop (unix.py lines 107–116): keep blank/comment lines and
data lines whose parsed command differs from the requested one. -/
def deleteLoop (cronCmd : PyStr) : List PyStr → List PyStr
  | [] => []
  | line :: rest =>
    if isCommentOrBlank line then line :: deleteLoop cronCmd rest
    else if lineCommand line ≠ cronCmd then line :: deleteLoop cronCmd rest
    else deleteLoop cronCmd rest

/-- Embeds `UnixInterface.delete` (unix.py lines 99–125): raise on an empty
command, return `False` when the listing fails, otherwise rewrite the table
unconditionally from the kept lines and return `True`. -/
def delete (cronCmd : PyStr) (st : CrontabState) : Except PyErr (Bool × CrontabState) :=
  if cronCmd = [] then
    .error (.valueError "Cron command is required to delete an entry.")
  else
    match st with
    | none => .ok (false, none)
    | some content =>
      .ok (true, some (joinWith '\n' (deleteLoop cronCmd (splitNL content)) ++ ['\n']))

/-- Trailing-newline normalization used to compare table contents "byte-identical
up to trailing newline normalization". -/
def rstripNL (s : PyStr) : PyStr := (s.reverse.dropWhile (fun c => c == '\n')).reverse

/-- The per-line parse of `get_all` as the spec describes it: skip blank and
comment lines, first 5 whitespace-separated tokens are the interval, the rest
is the command; lines without a command token yield no entry. -/
def parsedEntry (line : PyStr) : Option Cron :=
  if isCommentOrBlank line then none
  else if lineCommand line = [] then none
  else some (Cron.mk (lineCommand line) (lineInterval line))

/-- The keep-predicate of `delete` as the spec describes it: a line survives
iff it is blank/comment or its parsed command differs from the target. -/
def deleteKeeps (cronCmd line : PyStr) : Bool :=
  isCommentOrBlank line || decide (lineCommand line ≠ cronCmd)

/-- Table contents as maintained by this backend are empty or newline-terminated;
`add` only appends a whole line when this holds of the prior content. -/
def wellTerminated : CrontabState → Prop
  | none => True
  | some c => c = [] ∨ c.getLast? = some '\n'

/-! Helper lemmas about the embedded Python string primitives. -/

theorem splitBy_ne_nil (p : Char → Bool) (s : PyStr) : splitBy p s ≠ [] := by
  induction s with
  | nil => simp [splitBy]
  | cons c cs ih =>
    rw [splitBy]
    rcases h : splitBy p cs with _ | ⟨piece, rest⟩
    · simp
    · by_cases hp : p c <;> simp [hp]

theorem exists_splitBy_cons (p : Char → Bool) (s : PyStr) :
    ∃ piece rest, splitBy p s = piece :: rest := by
  rcases h : splitBy p s with _ | ⟨piece, rest⟩
  · exact absurd h (splitBy_ne_nil p s)
  · exact ⟨piece, rest, rfl⟩

theorem splitBy_cons_of_eq {p : Char → Bool} {cs piece rest} (c : Char)
    (h : splitBy p cs = piece :: rest) :
    splitBy p (c :: cs) = if p c then [] :: piece :: rest else (c :: piece) :: rest := by
  rw [splitBy, h]

theorem splitBy_append_sep {p : Char → Bool} {c : Char} (hc : p c = true) (xs ys : PyStr) :
    splitBy p (xs ++ c :: ys) = splitBy p xs ++ splitBy p ys := by
  induction xs with
  | nil =>
    obtain ⟨piece, rest, h⟩ := exists_splitBy_cons p ys
    simp [splitBy_cons_of_eq c h, hc, splitBy, h]
  | cons x xs ih =>
    obtain ⟨piece, rest, h⟩ := exists_splitBy_cons p xs
    have h2 : splitBy p (xs ++ c :: ys) = piece :: (rest ++ splitBy p ys) := by
      rw [ih, h]; simp
    rw [List.cons_append, splitBy_cons_of_eq x h2, splitBy_cons_of_eq x h]
    by_cases hx : p x <;> simp [hx]

theorem splitBy_eq_single {p : Char → Bool} {s : PyStr} (h : ∀ c ∈ s, p c = false) :
    splitBy p s = [s] := by
  induction s with
  | nil => simp [splitBy]
  | cons c cs ih =>
    have h2 : splitBy p cs = [cs] := ih fun x hx => h x (List.mem_cons_of_mem c hx)
    rw [splitBy_cons_of_eq c h2, if_neg]
    simp [h c (List.mem_cons_self c cs)]

theorem mem_splitBy_not_sep {p : Char → Bool} {s piece : PyStr} {c : Char}
    (hp : piece ∈ splitBy p s) (hc : c ∈ piece) : p c = false := by
  induction s generalizing piece with
  | nil =>
    simp [splitBy] at hp
    subst hp
    simp at hc
  | cons x xs ih =>
    obtain ⟨q, rest, h⟩ := exists_splitBy_cons p xs
    rw [splitBy_cons_of_eq x h] at hp
    by_cases hx : p x
    · rw [if_pos hx] at hp
      rcases List.mem_cons.mp hp with h1 | h1
      · subst h1; simp at hc
      · exact ih (by rw [h]; exact h1) hc
    · rw [if_neg hx] at hp
      rcases List.mem_cons.mp hp with h1 | h1
      · subst h1
        rcases List.mem_cons.mp hc with h2 | h2
        · subst h2; simpa using hx
        · exact ih (by rw [h]; exact List.mem_cons_self q rest) h2
      · exact ih (by rw [h]; exact List.mem_cons_of_mem q h1) hc

theorem joinWith_splitBy (sep : Char) (s : PyStr) :
    joinWith sep (splitBy (fun c => c == sep) s) = s := by
  induction s with
  | nil => simp [splitBy, joinWith]
  | cons c cs ih =>
    obtain ⟨piece, rest, h⟩ := exists_splitBy_cons (fun c => c == sep) cs
    rw [splitBy_cons_of_eq c h]
    by_cases hc : c = sep
    · rw [if_pos (by simp [hc])]
      rw [h] at ih
      subst hc
      simpa [joinWith] using ih
    · rw [if_neg (by simp [hc])]
      cases rest with
      | nil =>
        rw [h] at ih
        simpa [joinWith] using congrArg (c :: ·) ih
      | cons r rs =>
        rw [h] at ih
        simpa [joinWith] using congrArg (c :: ·) ih

theorem mem_pySplit {s t : PyStr} (h : t ∈ pySplit s) :
    t ≠ [] ∧ ∀ c ∈ t, isPySpace c = false := by
  unfold pySplit at h
  obtain ⟨hmem, hne⟩ := List.mem_filter.mp h
  refine ⟨by simpa using hne, fun c hc => mem_splitBy_not_sep hmem hc⟩

theorem pySplit_append_space (a b : PyStr) : pySplit (a ++ ' ' :: b) = pySplit a ++ pySplit b := by
  unfold pySplit
  rw [splitBy_append_sep (by decide) a b, List.filter_append]

theorem dropWhile_of_head {p : Char → Bool} {s : PyStr}
    (h : ∀ c, s.head? = some c → p c = false) : s.dropWhile p = s := by
  cases s with
  | nil => rfl
  | cons c cs =>
    rw [List.dropWhile_cons, if_neg]
    simp [h c rfl]

theorem pyStrip_eq_self {s : PyStr} (h1 : ∀ c, s.head? = some c → isPySpace c = false)
    (h2 : ∀ c, s.getLast? = some c → isPySpace c = false) : pyStrip s = s := by
  unfold pyStrip
  rw [dropWhile_of_head h1, dropWhile_of_head (by simpa using h2), List.reverse_reverse]

theorem pyStrip_ne_nil {s : PyStr} {c : Char} (hc : c ∈ s) (hw : isPySpace c = false) :
    pyStrip s ≠ [] := by
  unfold pyStrip
  intro h
  rw [List.reverse_eq_nil_iff, List.dropWhile_eq_nil_iff] at h
  have hmem : c ∈ s.dropWhile isPySpace := by
    rcases (List.mem_append.mp (by rw [List.takeWhile_append_dropWhile]; exact hc :
        c ∈ s.takeWhile isPySpace ++ s.dropWhile isPySpace)) with h1 | h1
    · exact absurd (List.mem_takeWhile_imp h1) (by simp [hw])
    · exact h1
  have := h c (List.mem_reverse.mpr hmem)
  simp [hw] at this

theorem mem_joinWith {sep : Char} {ls : List PyStr} {c : Char} (hc : c ∈ joinWith sep ls) :
    c = sep ∨ ∃ t ∈ ls, c ∈ t := by
  induction ls with
  | nil => simp [joinWith] at hc
  | cons t ts ih =>
    cases ts with
    | nil =>
      right
      exact ⟨t, List.mem_cons_self t [], by simpa [joinWith] using hc⟩
    | cons t2 ts2 =>
      rw [show joinWith sep (t :: t2 :: ts2) = t ++ sep :: joinWith sep (t2 :: ts2) from rfl]
        at hc
      rcases List.mem_append.mp hc with h1 | h1
      · exact Or.inr ⟨t, List.mem_cons_self _ _, h1⟩
      · rcases List.mem_cons.mp h1 with h2 | h2
        · exact Or.inl h2
        · rcases ih h2 with h3 | ⟨u, hu, hcu⟩
          · exact Or.inl h3
          · exact Or.inr ⟨u, List.mem_cons_of_mem t hu, hcu⟩

theorem joinWith_head? {sep : Char} {t : PyStr} {ts : List PyStr} (ht : t ≠ []) :
    (joinWith sep (t :: ts)).head? = t.head? := by
  cases ts with
  | nil => rfl
  | cons t2 ts2 =>
    rw [show joinWith sep (t :: t2 :: ts2) = t ++ sep :: joinWith sep (t2 :: ts2) from rfl]
    cases t with
    | nil => exact absurd rfl ht
    | cons a as => rfl

theorem joinWith_ne_nil {sep : Char} {ts : List PyStr} (h0 : ts ≠ [])
    (h : ∀ t ∈ ts, t ≠ []) : joinWith sep ts ≠ [] := by
  cases ts with
  | nil => exact absurd rfl h0
  | cons t ts2 =>
    cases ts2 with
    | nil => simpa [joinWith] using h t (List.mem_cons_self t [])
    | cons t2 ts3 =>
      rw [show joinWith sep (t :: t2 :: ts3) = t ++ sep :: joinWith sep (t2 :: ts3) from rfl]
      simp

theorem joinWith_getLast? {sep : Char} {ts : List PyStr}
    (h : ∀ t ∈ ts, t ≠ []) :
    ∀ c, (joinWith sep ts).getLast? = some c → ∃ t ∈ ts, c ∈ t := by
  induction ts with
  | nil => simp [joinWith]
  | cons t ts2 ih =>
    cases ts2 with
    | nil =>
      intro c hc
      refine ⟨t, List.mem_cons_self t [], ?_⟩
      have heq : (joinWith sep [t]).getLast? = t.getLast? := rfl
      rw [heq] at hc
      exact List.mem_of_getLast?_eq_some hc
    | cons t2 ts3 =>
      intro c hc
      rw [show joinWith sep (t :: t2 :: ts3) = t ++ sep :: joinWith sep (t2 :: ts3) from rfl,
        List.getLast?_append] at hc
      have hj : joinWith sep (t2 :: ts3) ≠ [] :=
        joinWith_ne_nil (by simp) (fun u hu => h u (List.mem_cons_of_mem t hu))
      cases hj2 : (joinWith sep (t2 :: ts3)).getLast? with
      | none => exact absurd (List.getLast?_eq_none_iff.mp hj2) hj
      | some x =>
        rw [List.getLast?_cons, hj2] at hc
        simp only [Option.getD_some, Option.or_some, Option.some.injEq] at hc
        obtain ⟨u, hu, hcu⟩ := ih (fun u hu => h u (List.mem_cons_of_mem t hu)) c
          (by rw [hj2, hc])
        exact ⟨u, List.mem_cons_of_mem t hu, hcu⟩

theorem pyStrip_joinWith {ts : List PyStr}
    (h : ∀ t ∈ ts, t ≠ [] ∧ ∀ c ∈ t, isPySpace c = false) :
    pyStrip (joinWith ' ' ts) = joinWith ' ' ts := by
  cases ts with
  | nil => rfl
  | cons t ts2 =>
    apply pyStrip_eq_self
    · intro c hc
      rw [joinWith_head? (h t (List.mem_cons_self t ts2)).1] at hc
      exact (h t (List.mem_cons_self t ts2)).2 c (List.mem_of_mem_head? hc)
    · intro c hc
      obtain ⟨u, hu, hcu⟩ := joinWith_getLast? (fun u hu => (h u hu).1) c hc
      exact (h u hu).2 c hcu

/-! Helper lemmas about the embedded backend loops. -/

theorem getAllLoop_append (xs ys : List PyStr) :
    getAllLoop (xs ++ ys) = getAllLoop xs ++ getAllLoop ys := by
  induction xs with
  | nil => rfl
  | cons l ls ih =>
    rw [List.cons_append, getAllLoop, getAllLoop]
    split_ifs with h1 h2 <;> simp [ih]

theorem getAllLoop_eq_filterMap (ls : List PyStr) :
    getAllLoop ls = ls.filterMap parsedEntry := by
  induction ls with
  | nil => rfl
  | cons l ls ih =>
    rw [getAllLoop, List.filterMap_cons]
    by_cases h1 : isCommentOrBlank l
    · have hp : parsedEntry l = none := by simp [parsedEntry, h1]
      rw [if_pos h1, hp, ih]
    · by_cases h2 : lineCommand l = []
      · have hp : parsedEntry l = none := by simp [parsedEntry, h1, h2]
        rw [if_neg h1, if_neg (fun hne => hne h2), hp, ih]
      · have hp : parsedEntry l = some (Cron.mk (lineCommand l) (lineInterval l)) := by
          simp [parsedEntry, h1, h2]
        rw [if_neg h1, if_pos h2, hp, ih]

theorem getAllLoop_command_ne_nil {ls : List PyStr} {e : Cron} (h : e ∈ getAllLoop ls) :
    e.command ≠ [] := by
  induction ls with
  | nil => simp [getAllLoop] at h
  | cons l ls ih =>
    rw [getAllLoop] at h
    split_ifs at h with h1 h2
    · exact ih h
    · rcases List.mem_cons.mp h with h3 | h3
      · subst h3; exact h2
      · exact ih h3
    · exact ih h

theorem deleteLoop_eq_filter (cronCmd : PyStr) (ls : List PyStr) :
    deleteLoop cronCmd ls = ls.filter (deleteKeeps cronCmd) := by
  induction ls with
  | nil => rfl
  | cons l ls ih =>
    rw [deleteLoop, List.filter_cons]
    by_cases h1 : isCommentOrBlank l
    · have hk : deleteKeeps cronCmd l = true := by simp [deleteKeeps, h1]
      rw [if_pos h1, if_pos hk, ih]
    · by_cases h2 : lineCommand l ≠ cronCmd
      · have hk : deleteKeeps cronCmd l = true := by simp [deleteKeeps, h2]
        rw [if_neg h1, if_pos h2, if_pos hk, ih]
      · have heq : lineCommand l = cronCmd := not_not.mp h2
        have hk : deleteKeeps cronCmd l = false := by
          rw [deleteKeeps, Bool.or_eq_false_iff]
          refine ⟨by simpa using h1, by simp [heq]⟩
        rw [if_neg h1, if_neg h2, if_neg (by simp [hk]), ih]

theorem editLine_snd (cronCmd newCommand : PyStr) (kwInterval : Option PyStr) (line : PyStr) :
    (editLine cronCmd newCommand kwInterval line).2 = editMatches cronCmd line := by
  unfold editLine editMatches
  split_ifs with h1 h2
  · simp [h1]
  · simp [h1, h2]
  · simp [h1, h2]

theorem editLine_fst_of_not_match {cronCmd line : PyStr} (newCommand : PyStr)
    (kwInterval : Option PyStr) (h : editMatches cronCmd line = false) :
    (editLine cronCmd newCommand kwInterval line).1 = line := by
  unfold editMatches at h
  unfold editLine
  split_ifs with h1 h2
  · rfl
  · simp [h1, h2] at h
  · rfl

theorem editLine_fst_of_match {cronCmd line : PyStr} (newCommand : PyStr)
    (kwInterval : Option PyStr) (h : editMatches cronCmd line = true) :
    (editLine cronCmd newCommand kwInterval line).1 = editApply newCommand kwInterval line := by
  unfold editMatches at h
  simp only [Bool.and_eq_true, Bool.not_eq_eq_eq_not, Bool.not_true, decide_eq_true_eq] at h
  unfold editLine
  rw [if_neg (by simp [h.1]), if_pos h.2]

theorem rstripNL_append_newline (s : PyStr) : rstripNL (s ++ ['\n']) = rstripNL s := by
  unfold rstripNL
  rw [List.reverse_append]
  simp

/-! Helper lemmas about the modelled cron-expression validator: a valid field
never starts with the comment character. -/

theorem validRangeTok_head {lo hi : Nat} {c : Char} {t : PyStr}
    (h : validRangeTok lo hi (c :: t) = true) : c.isDigit = true := by
  unfold validRangeTok at h
  obtain ⟨piece, rest, hs⟩ := exists_splitBy_cons (fun x => x == '-') t
  rw [splitBy_cons_of_eq c hs] at h
  by_cases hc : c = '-'
  · rw [if_pos (by simp [hc])] at h
    cases rest with
    | nil => simp [isNatStr] at h
    | cons r rs => simp at h
  · rw [if_neg (by simp [hc])] at h
    cases rest with
    | nil => simp at h
    | cons r rs =>
      cases rs with
      | nil =>
        simp only [Bool.and_eq_true] at h
        have := h.1.1.1.1
        simp only [isNatStr, Bool.and_eq_true, List.all_cons] at this
        exact this.2.1
      | cons r2 rs2 => simp at h

theorem validBase_head {lo hi : Nat} {c : Char} {t : PyStr}
    (h : validBase lo hi (c :: t) = true) : c = '*' ∨ c.isDigit = true := by
  unfold validBase at h
  rcases Bool.or_eq_true_iff.mp h with h1 | h1
  · rcases Bool.or_eq_true_iff.mp h1 with h2 | h2
    · exact Or.inl (List.cons_eq_cons.mp (of_decide_eq_true h2)).1
    · right
      simp only [Bool.and_eq_true, isNatStr, List.all_cons] at h2
      exact h2.1.1.2.1
  · exact Or.inr (validRangeTok_head h1)

theorem validAtom_head {lo hi : Nat} {c : Char} {t : PyStr}
    (h : validAtom lo hi (c :: t) = true) : c = '*' ∨ c.isDigit = true := by
  unfold validAtom at h
  obtain ⟨piece, rest, hs⟩ := exists_splitBy_cons (fun x => x == '/') t
  rw [splitBy_cons_of_eq c hs] at h
  by_cases hc : c = '/'
  · rw [if_pos (by simp [hc])] at h
    cases rest with
    | nil =>
      simp only [validBase, validRangeTok, isNatStr, splitBy] at h
      simp at h
    | cons r rs =>
      cases rs with
      | nil => simp [isNatStr] at h
      | cons r2 rs2 => simp at h
  · rw [if_neg (by simp [hc])] at h
    cases rest with
    | nil => exact validBase_head h
    | cons r rs =>
      cases rs with
      | nil =>
        simp only [Bool.and_eq_true] at h
        rcases Bool.or_eq_true_iff.mp h.1.1 with h2 | h2
        · exact Or.inl (List.cons_eq_cons.mp (of_decide_eq_true h2)).1
        · exact Or.inr (validRangeTok_head h2)
      | cons r2 rs2 => simp at h

theorem validField_head {lo hi : Nat} {f : PyStr} (h : validField lo hi f = true) :
    ∀ c, f.head? = some c → c = '*' ∨ c.isDigit = true := by
  intro c hc
  cases f with
  | nil => simp at hc
  | cons x t =>
    have hx : x = c := by
      simp only [List.head?_cons, Option.some.injEq] at hc
      exact hc
    subst hx
    unfold validField at h
    obtain ⟨piece, rest, hs⟩ := exists_splitBy_cons (fun y => y == ',') t
    rw [splitBy_cons_of_eq x hs] at h
    by_cases hcc : x = ','
    · rw [if_pos (by simp [hcc])] at h
      simp only [List.all_cons, Bool.and_eq_true] at h
      have : validAtom lo hi [] = true := h.1
      simp [validAtom, splitBy, validBase, validRangeTok, isNatStr] at this
    · rw [if_neg (by simp [hcc])] at h
      simp only [List.all_cons, Bool.and_eq_true] at h
      exact validAtom_head h.1

theorem edit_some_eq {cmd : PyStr} (kwc kwi : Option PyStr) (content : PyStr) (h : cmd ≠ []) :
    edit cmd kwc kwi (some content) =
      (if ((splitNL content).map (editLine cmd (kwc.getD cmd) kwi)).any (fun r => r.2) then
        .ok (true, some (joinWith '\n'
          (((splitNL content).map (editLine cmd (kwc.getD cmd) kwi)).map (fun r => r.1))
          ++ ['\n']))
      else .ok (false, some content)) := by
  unfold edit
  rw [if_neg h]

theorem delete_some_eq {cmd : PyStr} (content : PyStr) (h : cmd ≠ []) :
    delete cmd (some content) =
      .ok (true, some (joinWith '\n' ((splitNL content).filter (deleteKeeps cmd))
        ++ ['\n'])) := by
  unfold delete
  rw [if_neg h]
  show Except.ok (true, some (joinWith '\n' (deleteLoop cmd (splitNL content)) ++ ['\n'])) = _
  rw [deleteLoop_eq_filter]

/-! Claim theorems. -/

/-- C3: backend construction establishes a table with no data entries — for
every prior state of the external table, immediately after `__init__` a
`get_all` returns the empty sequence, and the table exists (the listing never
fails with an uninitialized-table error). -/
theorem init_establishes_empty_table (st : CrontabState) :
    get_all (initCrontab st) = [] ∧ (initCrontab st).isSome = true := by
  constructor
  · show get_all (some (String.toList "# Created automatically by Pycron =)\n")) = []
    decide
  · rfl

/-- C7: `is_valid_cron_format` (total and pure by construction in this
embedding) accepts the claim's well-formed examples and rejects its malformed
ones; the general grammar clauses hold definitionally of the modelled
validator, which is the §4.2 grammar itself. -/
theorem is_valid_cron_format_spec :
    is_valid_cron_format (String.toList "* * * * *") = true ∧
    is_valid_cron_format (String.toList "*/15 * * * *") = true ∧
    is_valid_cron_format (String.toList "0 12 * * *") = true ∧
    is_valid_cron_format (String.toList "30 2 * * 1-5") = true ∧
    is_valid_cron_format (String.toList "") = false ∧
    is_valid_cron_format (String.toList "invalid") = false ∧
    is_valid_cron_format (String.toList "* * * *") = false ∧
    is_valid_cron_format (String.toList "* * * * * *") = false ∧
    is_valid_cron_format (String.toList "60 * * * *") = false := by
  decide

/-- C6: `get_all` returns the empty sequence (not an error) when the listing
command fails, and otherwise parses the table text line by line: blank and
comment lines are skipped, a data line yields an entry built from its first 5
whitespace-separated tokens (interval) and the remaining tokens (command), and
malformed lines — those without a command part — are silently skipped.  This
is exactly `filterMap parsedEntry` over the split lines. -/
theorem get_all_parse_spec :
    get_all none = [] ∧
    ∀ content : PyStr, get_all (some content) = (splitNL content).filterMap parsedEntry :=
  ⟨rfl, fun content => getAllLoop_eq_filterMap (splitNL content)⟩

/-- C10: every entry returned by `get_all` has a nonempty command; a non-blank
non-comment line with at most 5 whitespace-separated tokens produces no entry,
while such a line with a sixth token always produces exactly one entry, with
no requirement that its first 5 tokens form a valid cron expression. -/
theorem get_all_entry_spec :
    (∀ st : CrontabState, ∀ e ∈ get_all st, e.command ≠ []) ∧
    (∀ line : PyStr, isCommentOrBlank line = false → (pySplit line).length ≤ 5 →
      getAllLoop [line] = []) ∧
    (∀ line : PyStr, isCommentOrBlank line = false → 6 ≤ (pySplit line).length →
      getAllLoop [line] = [Cron.mk (lineCommand line) (lineInterval line)]) := by
  refine ⟨?_, ?_, ?_⟩
  · intro st e he
    cases st with
    | none => simp [get_all] at he
    | some content => exact getAllLoop_command_ne_nil he
  · intro line h1 h2
    have hdrop : (pySplit line).drop 5 = [] := List.drop_eq_nil_of_le h2
    have hcmd : lineCommand line = [] := by
      unfold lineCommand
      rw [hdrop]
      rfl
    rw [getAllLoop, if_neg (by simp [h1]), if_neg (fun hne => hne hcmd)]
    rfl
  · intro line h1 h2
    have hne : (pySplit line).drop 5 ≠ [] := by
      intro hd
      have := congrArg List.length hd
      simp only [List.length_drop, List.length_nil] at this
      omega
    have htok : ∀ t ∈ (pySplit line).drop 5, t ≠ [] ∧ ∀ c ∈ t, isPySpace c = false :=
      fun t ht => mem_pySplit (List.mem_of_mem_drop ht)
    have hcm : lineCommand line ≠ [] := by
      unfold lineCommand
      rw [pyStrip_joinWith htok]
      exact joinWith_ne_nil hne fun t ht => (htok t ht).1
    rw [getAllLoop, if_neg (by simp [h1]), if_pos hcm]
    rfl

/-- C10 witness: a 6-token data line with an invalid interval still produces
its entry, a 5-token data line produces none, and a returned entry has a
nonempty command. -/
theorem get_all_entry_spec_witness :
    (Cron.mk (String.toList "f") (String.toList "a b c d e") ∈
        get_all (some (String.toList "a b c d e f\n"))) ∧
    (Cron.mk (String.toList "f") (String.toList "a b c d e")).command ≠ [] ∧
    isCommentOrBlank (String.toList "1 2 3 4 5") = false ∧
    (pySplit (String.toList "1 2 3 4 5")).length ≤ 5 ∧
    getAllLoop [String.toList "1 2 3 4 5"] = [] ∧
    isCommentOrBlank (String.toList "a b c d e f") = false ∧
    6 ≤ (pySplit (String.toList "a b c d e f")).length ∧
    getAllLoop [String.toList "a b c d e f"] =
      [Cron.mk (String.toList "f") (String.toList "a b c d e")] :=
  ⟨by decide,
   get_all_entry_spec.1 (some (String.toList "a b c d e f\n"))
     (Cron.mk (String.toList "f") (String.toList "a b c d e")) (by decide),
   by decide, by decide,
   get_all_entry_spec.2.1 (String.toList "1 2 3 4 5") (by decide) (by decide),
   by decide, by decide,
   get_all_entry_spec.2.2 (String.toList "a b c d e f") (by decide) (by decide)⟩

/-- C1 counterexample: at the concrete call `add("", "* * * *")` — empty
command and syntactically invalid interval — `add` raises nothing (it is a
total function of the code, which has no raise path), returns the entry, and
modifies the external table, contradicting the claim that it raises
`ValidationError` and leaves the table unmodified. -/
theorem add_validates_cex :
    (String.toList "") = [] ∧
    is_valid_cron_format (String.toList "* * * *") = false ∧
    add (String.toList "") (String.toList "* * * *") (some []) =
      (Cron.mk (String.toList "") (String.toList "* * * *"),
        some (String.toList "* * * * \n")) ∧
    some (String.toList "* * * * \n") ≠ (some [] : CrontabState) := by
  decide

/-- C1 (amended): `add` performs no validation whatsoever: for every command
and interval — including an empty command or a syntactically invalid
interval — it never raises, returns the entry carrying exactly that command
and interval, and appends exactly the bytes of `str(entry)` plus a newline to
the previous table content (the empty content when the table is unreadable). -/
theorem add_appends_unconditionally (command interval : PyStr) (st : CrontabState) :
    add command interval st =
      (Cron.mk command interval,
        some (st.getD [] ++ (interval ++ ' ' :: command) ++ ['\n'])) := by
  unfold add cronStr
  cases st <;> rfl

/-- C4: `delete` raises `ValueError` (the code's `ValidationError`) on an
empty command; returns `false` when the table cannot be read; otherwise it
removes exactly the data lines whose parsed command equals the target, keeps
every other line in its original order (the written table is the kept lines
filtered in order, each newline-terminated), rewrites unconditionally and
returns `true`; and when no line matches, the table afterwards is byte-identical
to the table before up to trailing-newline normalization. -/
theorem delete_spec :
    (∀ st : CrontabState, delete [] st =
      .error (.valueError "Cron command is required to delete an entry.")) ∧
    (∀ cmd : PyStr, cmd ≠ [] → delete cmd none = .ok (false, none)) ∧
    (∀ cmd content : PyStr, cmd ≠ [] →
      delete cmd (some content) =
        .ok (true, some (joinWith '\n' ((splitNL content).filter (deleteKeeps cmd))
          ++ ['\n']))) ∧
    (∀ cmd content : PyStr, cmd ≠ [] →
      (∀ l ∈ splitNL content, deleteKeeps cmd l = true) →
      ∃ c2, delete cmd (some content) = .ok (true, some c2) ∧
        rstripNL c2 = rstripNL content) := by
  refine ⟨?_, ?_, ?_, ?_⟩
  · intro st
    unfold delete
    rw [if_pos rfl]
  · intro cmd h
    unfold delete
    rw [if_neg h]
  · intro cmd content h
    unfold delete
    rw [if_neg h]
    show Except.ok (true, some (joinWith '\n' (deleteLoop cmd (splitNL content)) ++ ['\n'])) = _
    rw [deleteLoop_eq_filter]
  · intro cmd content h hall
    refine ⟨joinWith '\n' ((splitNL content).filter (deleteKeeps cmd)) ++ ['\n'], ?_, ?_⟩
    · unfold delete
      rw [if_neg h]
      show Except.ok (true, some (joinWith '\n' (deleteLoop cmd (splitNL content)) ++ ['\n'])) = _
      rw [deleteLoop_eq_filter]
    · rw [List.filter_eq_self.mpr (by simpa using hall)]
      rw [show joinWith '\n' (splitNL content) = content from joinWith_splitBy '\n' content]
      exact rstripNL_append_newline content

/-- C4 witness: deleting a command that matches no line of a concrete table
returns `true` and leaves the content unchanged up to trailing-newline
normalization. -/
theorem delete_spec_witness :
    (String.toList "x" ≠ []) ∧
    delete (String.toList "x") (some (String.toList "# a\n1 2 3 4 5 y\n")) =
      .ok (true, some (joinWith '\n'
        ((splitNL (String.toList "# a\n1 2 3 4 5 y\n")).filter
          (deleteKeeps (String.toList "x"))) ++ ['\n'])) ∧
    (∀ l ∈ splitNL (String.toList "# a\n1 2 3 4 5 y\n"),
      deleteKeeps (String.toList "x") l = true) ∧
    (∃ c2, delete (String.toList "x") (some (String.toList "# a\n1 2 3 4 5 y\n")) =
      .ok (true, some c2) ∧
      rstripNL c2 = rstripNL (String.toList "# a\n1 2 3 4 5 y\n")) :=
  ⟨by decide,
   delete_spec.2.2.1 (String.toList "x") (String.toList "# a\n1 2 3 4 5 y\n") (by decide),
   by decide,
   delete_spec.2.2.2 (String.toList "x") (String.toList "# a\n1 2 3 4 5 y\n")
     (by decide) (by decide)⟩

/-- C5: when the table cannot be read `edit` returns `false` rather than
raising; when no data line's parsed command equals the (nonempty) target,
`edit` returns `false` and the table state is exactly unchanged (no write-back
occurs); and `edit` returns `true` exactly when some line matches. -/
theorem edit_no_match_spec :
    (∀ cmd : PyStr, ∀ kwc kwi : Option PyStr, cmd ≠ [] →
      edit cmd kwc kwi none = .ok (false, none)) ∧
    (∀ cmd : PyStr, ∀ kwc kwi : Option PyStr, ∀ content : PyStr, cmd ≠ [] →
      (∀ l ∈ splitNL content, editMatches cmd l = false) →
      edit cmd kwc kwi (some content) = .ok (false, some content)) ∧
    (∀ cmd : PyStr, ∀ kwc kwi : Option PyStr, ∀ content : PyStr, cmd ≠ [] →
      ((∃ st2, edit cmd kwc kwi (some content) = .ok (true, st2)) ↔
        ∃ l ∈ splitNL content, editMatches cmd l = true)) := by
  refine ⟨?_, ?_, ?_⟩
  · intro cmd kwc kwi h
    unfold edit
    rw [if_neg h]
  · intro cmd kwc kwi content h hall
    have hany : ((splitNL content).map (editLine cmd (kwc.getD cmd) kwi)).any
        (fun r => r.2) = false := by
      rw [List.any_eq_false]
      intro r hr
      obtain ⟨l, hl, hrl⟩ := List.mem_map.mp hr
      rw [← hrl, editLine_snd]
      simp [hall l hl]
    rw [edit_some_eq kwc kwi content h, if_neg (by simp [hany])]
  · intro cmd kwc kwi content h
    constructor
    · rintro ⟨st2, hst⟩
      rw [edit_some_eq kwc kwi content h] at hst
      by_cases hany : ((splitNL content).map (editLine cmd (kwc.getD cmd) kwi)).any
          (fun r => r.2) = true
      · rw [List.any_eq_true] at hany
        obtain ⟨r, hr, hr2⟩ := hany
        obtain ⟨l, hl, hrl⟩ := List.mem_map.mp hr
        refine ⟨l, hl, ?_⟩
        rw [← editLine_snd cmd (kwc.getD cmd) kwi l, hrl]
        exact hr2
      · rw [if_neg hany] at hst
        simp at hst
    · rintro ⟨l, hl, hm⟩
      have hany : ((splitNL content).map (editLine cmd (kwc.getD cmd) kwi)).any
          (fun r => r.2) = true := by
        rw [List.any_eq_true]
        exact ⟨editLine cmd (kwc.getD cmd) kwi l, List.mem_map_of_mem _ hl,
          by rw [editLine_snd]; exact hm⟩
      refine ⟨some (joinWith '\n'
        (((splitNL content).map (editLine cmd (kwc.getD cmd) kwi)).map (fun r => r.1))
        ++ ['\n']), ?_⟩
      rw [edit_some_eq kwc kwi content h, if_pos hany]

/-- C5 witness: editing a command absent from a concrete table returns `false`
and leaves the state byte-identical. -/
theorem edit_no_match_spec_witness :
    (String.toList "absent" ≠ []) ∧
    (∀ l ∈ splitNL (String.toList "# c\n* * * * * go\n"),
      editMatches (String.toList "absent") l = false) ∧
    edit (String.toList "absent") none none (some (String.toList "# c\n* * * * * go\n")) =
      .ok (false, some (String.toList "# c\n* * * * * go\n")) ∧
    edit (String.toList "absent") none none none = .ok (false, none) :=
  ⟨by decide, by decide,
   edit_no_match_spec.2.1 (String.toList "absent") none none
     (String.toList "# c\n* * * * * go\n") (by decide) (by decide),
   edit_no_match_spec.1 (String.toList "absent") none none (by decide)⟩

/-- C9: when the table contains two or more data lines whose parsed command
equals the (nonempty) target, `edit` returns `true` and applies its in-place
replacement to every matching line, not only the first: the written table is
the newline-join of an output line list of the same length in which every
matching line has been rewritten by the replacement rule at its own position. -/
theorem edit_rewrites_all_matches (cmd : PyStr) (kwc kwi : Option PyStr) (content : PyStr)
    (h : cmd ≠ [])
    (h2 : 2 ≤ (splitNL content).countP (editMatches cmd)) :
    ∃ out : List PyStr,
      edit cmd kwc kwi (some content) = .ok (true, some (joinWith '\n' out ++ ['\n'])) ∧
      out.length = (splitNL content).length ∧
      (∀ i : Nat, ∀ l : PyStr, (splitNL content)[i]? = some l → editMatches cmd l = true →
        out[i]? = some (editApply (kwc.getD cmd) kwi l)) := by
  have hex : ∃ l ∈ splitNL content, editMatches cmd l = true := by
    rw [← List.countP_pos_iff]
    omega
  obtain ⟨l0, hl0, hm0⟩ := hex
  have hany : ((splitNL content).map (editLine cmd (kwc.getD cmd) kwi)).any
      (fun r => r.2) = true := by
    rw [List.any_eq_true]
    exact ⟨editLine cmd (kwc.getD cmd) kwi l0, List.mem_map_of_mem _ hl0,
      by rw [editLine_snd]; exact hm0⟩
  refine ⟨((splitNL content).map (editLine cmd (kwc.getD cmd) kwi)).map (fun r => r.1),
    ?_, by simp, ?_⟩
  · rw [edit_some_eq kwc kwi content h, if_pos hany]
  · intro i l hil hm
    rw [List.getElem?_map, List.getElem?_map, hil]
    simp only [Option.map_some']
    rw [editLine_fst_of_match _ _ hm]

/-- C9 witness: a concrete table with two lines whose command is `go`; editing
`go` with a new interval rewrites both lines and returns `true`. -/
theorem edit_rewrites_all_matches_witness :
    (String.toList "go" ≠ []) ∧
    2 ≤ (splitNL (String.toList "* * * * * go\n0 0 * * * go\n")).countP
      (editMatches (String.toList "go")) ∧
    ∃ out : List PyStr,
      edit (String.toList "go") none (some (String.toList "1 1 1 1 1"))
          (some (String.toList "* * * * * go\n0 0 * * * go\n")) =
        .ok (true, some (joinWith '\n' out ++ ['\n'])) ∧
      out.length = (splitNL (String.toList "* * * * * go\n0 0 * * * go\n")).length ∧
      (∀ i : Nat, ∀ l : PyStr,
        (splitNL (String.toList "* * * * * go\n0 0 * * * go\n"))[i]? = some l →
        editMatches (String.toList "go") l = true →
        out[i]? = some (editApply ((none : Option PyStr).getD (String.toList "go"))
          (some (String.toList "1 1 1 1 1")) l)) :=
  ⟨by decide, by decide,
   edit_rewrites_all_matches (String.toList "go") none (some (String.toList "1 1 1 1 1"))
     (String.toList "* * * * * go\n0 0 * * * go\n") (by decide) (by decide)⟩

/-- C8 counterexample: deleting the single matching data line of a concrete
table moves the following comment line from index 1 to index 0 of the written
table, so a blank/comment line is preserved verbatim but NOT at its original
position, contradicting the claim as stated. -/
theorem preserve_position_cex :
    delete (String.toList "x") (some (String.toList "0 0 1 1 0 x\n# keep\n")) =
      .ok (true, some (String.toList "# keep\n\n")) ∧
    (splitNL (String.toList "0 0 1 1 0 x\n# keep\n"))[1]? = some (String.toList "# keep") ∧
    isCommentOrBlank (String.toList "# keep") = true ∧
    (splitNL (String.toList "# keep\n\n"))[1]? ≠ some (String.toList "# keep") := by
  decide

/-- C8 (amended): for `edit` and `delete`, every blank or comment line of the
table is preserved verbatim in the written-back table; for `edit` it keeps its
exact original position (and when `edit` writes nothing the state is wholly
unchanged), while for `delete` the blank/comment lines survive in their
original relative order — as the in-order subsequence of kept lines — though
their absolute indices shift down when matching data lines before them are
removed (and the written table gains a trailing empty line). -/
theorem comment_blank_preserved :
    (∀ cmd : PyStr, ∀ kwc kwi : Option PyStr, ∀ content c2 : PyStr,
      edit cmd kwc kwi (some content) = .ok (true, some c2) →
      ∃ out : List PyStr, c2 = joinWith '\n' out ++ ['\n'] ∧
        out.length = (splitNL content).length ∧
        (∀ i : Nat, ∀ l : PyStr, (splitNL content)[i]? = some l →
          isCommentOrBlank l = true → out[i]? = some l)) ∧
    (∀ cmd : PyStr, ∀ kwc kwi : Option PyStr, ∀ content : PyStr, ∀ st2 : CrontabState,
      edit cmd kwc kwi (some content) = .ok (false, st2) → st2 = some content) ∧
    (∀ cmd content c2 : PyStr,
      delete cmd (some content) = .ok (true, some c2) →
      ∃ kept : List PyStr, c2 = joinWith '\n' kept ++ ['\n'] ∧
        kept.Sublist (splitNL content) ∧
        kept.filter isCommentOrBlank = (splitNL content).filter isCommentOrBlank) := by
  refine ⟨?_, ?_, ?_⟩
  · intro cmd kwc kwi content c2 heq
    have hne : cmd ≠ [] := by
      intro hc
      subst hc
      unfold edit at heq
      rw [if_pos rfl] at heq
      exact Except.noConfusion heq
    rw [edit_some_eq kwc kwi content hne] at heq
    by_cases hany : ((splitNL content).map (editLine cmd (kwc.getD cmd) kwi)).any
        (fun r => r.2) = true
    · rw [if_pos hany] at heq
      simp only [Except.ok.injEq, Prod.mk.injEq, Option.some.injEq, true_and] at heq
      refine ⟨((splitNL content).map (editLine cmd (kwc.getD cmd) kwi)).map (fun r => r.1),
        heq.symm, by simp, ?_⟩
      intro i l hil hcb
      rw [List.getElem?_map, List.getElem?_map, hil]
      simp only [Option.map_some']
      rw [editLine_fst_of_not_match _ _ (by simp [editMatches, hcb])]
    · rw [if_neg hany] at heq
      simp at heq
  · intro cmd kwc kwi content st2 heq
    have hne : cmd ≠ [] := by
      intro hc
      subst hc
      unfold edit at heq
      rw [if_pos rfl] at heq
      exact Except.noConfusion heq
    rw [edit_some_eq kwc kwi content hne] at heq
    by_cases hany : ((splitNL content).map (editLine cmd (kwc.getD cmd) kwi)).any
        (fun r => r.2) = true
    · rw [if_pos hany] at heq
      simp at heq
    · rw [if_neg hany] at heq
      simp only [Except.ok.injEq, Prod.mk.injEq, true_and] at heq
      exact heq.symm
  · intro cmd content c2 heq
    have hne : cmd ≠ [] := by
      intro hc
      subst hc
      unfold delete at heq
      rw [if_pos rfl] at heq
      exact Except.noConfusion heq
    rw [delete_some_eq content hne] at heq
    simp only [Except.ok.injEq, Prod.mk.injEq, Option.some.injEq, true_and] at heq
    refine ⟨(splitNL content).filter (deleteKeeps cmd), heq.symm, List.filter_sublist _, ?_⟩
    rw [List.filter_filter]
    apply List.filter_congr
    intro x hx
    cases hcb : isCommentOrBlank x
    · simp
    · simp [deleteKeeps, hcb]

/-- C8 witness: on a concrete table, `edit` keeps the comment line at its
position and `delete` keeps it in relative order. -/
theorem comment_blank_preserved_witness :
    edit (String.toList "go") none none (some (String.toList "# c\n* * * * * go\n")) =
      .ok (true, some (String.toList "# c\n* * * * * go\n\n")) ∧
    (∃ out : List PyStr, String.toList "# c\n* * * * * go\n\n" = joinWith '\n' out ++ ['\n'] ∧
      out.length = (splitNL (String.toList "# c\n* * * * * go\n")).length ∧
      (∀ i : Nat, ∀ l : PyStr, (splitNL (String.toList "# c\n* * * * * go\n"))[i]? = some l →
        isCommentOrBlank l = true → out[i]? = some l)) ∧
    delete (String.toList "go") (some (String.toList "# c\n* * * * * go\n")) =
      .ok (true, some (String.toList "# c\n\n")) ∧
    (∃ kept : List PyStr, String.toList "# c\n\n" = joinWith '\n' kept ++ ['\n'] ∧
      kept.Sublist (splitNL (String.toList "# c\n* * * * * go\n")) ∧
      kept.filter isCommentOrBlank =
        (splitNL (String.toList "# c\n* * * * * go\n")).filter isCommentOrBlank) :=
  ⟨by decide,
   comment_blank_preserved.1 (String.toList "go") none none
     (String.toList "# c\n* * * * * go\n") (String.toList "# c\n* * * * * go\n\n")
     (by decide),
   by decide,
   comment_blank_preserved.2.2 (String.toList "go") (String.toList "# c\n* * * * * go\n")
     (String.toList "# c\n\n") (by decide)⟩

/-- C2 counterexample: three concrete valid `(command, interval)` pairs and
table states for which `add` followed by `get_all` does NOT yield an entry
with that exact command and interval: a command with a doubled internal space
(whitespace-canonicalized by the parser), a prior table content not ending in
a newline (the appended line fuses with the last partial line, here a
comment), and a valid but non-canonical interval with a doubled space. -/
theorem add_get_all_cex :
    (String.toList "a  b" ≠ []) ∧
    is_valid_cron_format (String.toList "* * * * *") = true ∧
    Cron.mk (String.toList "a  b") (String.toList "* * * * *") ∉
      get_all (add (String.toList "a  b") (String.toList "* * * * *") (some [])).2 ∧
    (String.toList "echo" ≠ []) ∧
    Cron.mk (String.toList "echo") (String.toList "* * * * *") ∉
      get_all (add (String.toList "echo") (String.toList "* * * * *")
        (some (String.toList "# h"))).2 ∧
    is_valid_cron_format (String.toList "*  * * * *") = true ∧
    Cron.mk (String.toList "echo") (String.toList "*  * * * *") ∉
      get_all (add (String.toList "echo") (String.toList "*  * * * *") (some [])).2 := by
  decide

/-- C2 (amended): for every command and interval where the command is nonempty
and whitespace-canonical (equal to the single-space join of its
whitespace-split tokens), the interval is a valid 5-field cron expression and
likewise whitespace-canonical, and every table state whose content, when
present, is empty or newline-terminated (as every table this backend writes
is), `add` followed by `get_all` yields a sequence containing an entry with
exactly that command and interval. -/
theorem add_get_all_contains (command interval : PyStr) (st : CrontabState)
    (hval : is_valid_cron_format interval = true)
    (hci : joinWith ' ' (pySplit interval) = interval)
    (hc0 : command ≠ [])
    (hcc : joinWith ' ' (pySplit command) = command)
    (hst : wellTerminated st) :
    Cron.mk command interval ∈ get_all (add command interval st).2 := by
  have hfields : ∃ m rest, pySplit interval = m :: rest ∧ (pySplit interval).length = 5 ∧
      validField 0 59 m = true := by
    unfold is_valid_cron_format at hval
    split at hval
    next m h2 dom mon dow heq =>
      simp only [Bool.and_eq_true] at hval
      exact ⟨m, [h2, dom, mon, dow], heq, by rw [heq]; rfl, hval.1.1.1.1⟩
    next heq => exact absurd hval (by simp)
  obtain ⟨m, rest, hsplit, hlen5, hvf⟩ := hfields
  have hmtok : m ≠ [] ∧ ∀ c ∈ m, isPySpace c = false :=
    mem_pySplit (by rw [hsplit]; exact List.mem_cons_self m rest)
  obtain ⟨c0, mt, hm⟩ := List.exists_cons_of_ne_nil hmtok.1
  have hc0star : c0 = '*' ∨ c0.isDigit = true := by
    apply validField_head hvf
    rw [hm]
    rfl
  have hc0ws : isPySpace c0 = false :=
    hmtok.2 c0 (by rw [hm]; exact List.mem_cons_self c0 mt)
  have hint_ne : interval ≠ [] := by
    rw [← hci, hsplit]
    exact joinWith_ne_nil (by simp)
      (fun t ht => (mem_pySplit (by rw [hsplit]; exact ht)).1)
  obtain ⟨i0, it, hintc⟩ := List.exists_cons_of_ne_nil hint_ne
  have hi0 : i0 = c0 := by
    have h1 : interval.head? = some c0 := by
      rw [← hci, hsplit, joinWith_head? hmtok.1, hm]
      rfl
    rw [hintc] at h1
    simpa using h1
  set L := interval ++ ' ' :: command with hLdef
  have hLcons : L = c0 :: (it ++ ' ' :: command) := by
    rw [hLdef, hintc, hi0]
    rfl
  have hCB : isCommentOrBlank L = false := by
    unfold isCommentOrBlank
    rw [Bool.or_eq_false_iff]
    constructor
    · simp only [decide_eq_false_iff_not]
      exact pyStrip_ne_nil (by rw [hLcons]; exact List.mem_cons_self _ _) hc0ws
    · rw [hLcons]
      show (c0 == '#') = false
      rcases hc0star with h | h
      · rw [h]
        rfl
      · simp only [beq_eq_false_iff_ne]
        intro hcontra
        rw [hcontra] at h
        exact absurd h (by decide)
  have hnoNL : ∀ c ∈ L, (c == '\n') = false := by
    intro c hcL
    rw [hLdef] at hcL
    have hws : isPySpace c = false ∨ c = ' ' := by
      rcases List.mem_append.mp hcL with h1 | h1
      · rw [← hci] at h1
        rcases mem_joinWith h1 with h2 | ⟨t, ht, hct⟩
        · exact Or.inr h2
        · exact Or.inl ((mem_pySplit ht).2 c hct)
      · rcases List.mem_cons.mp h1 with h2 | h2
        · exact Or.inr h2
        · rw [← hcc] at h2
          rcases mem_joinWith h2 with h3 | ⟨t, ht, hct⟩
          · exact Or.inr h3
          · exact Or.inl ((mem_pySplit ht).2 c hct)
    rcases hws with h | h
    · simp only [beq_eq_false_iff_ne]
      intro hceq
      rw [hceq] at h
      exact absurd h (by decide)
    · rw [h]
      rfl
  have hsplitL : pySplit L = pySplit interval ++ pySplit command := by
    rw [hLdef]
    exact pySplit_append_space interval command
  have hcmdL : lineCommand L = command := by
    unfold lineCommand
    rw [hsplitL, List.drop_left' hlen5, pyStrip_joinWith (fun t ht => mem_pySplit ht), hcc]
  have hintL : lineInterval L = interval := by
    unfold lineInterval
    rw [hsplitL, List.take_left' hlen5, hci]
  have hloop : getAllLoop [L, []] = [Cron.mk command interval] := by
    rw [getAllLoop, if_neg (by simp [hCB]), if_pos (by rw [hcmdL]; exact hc0)]
    rw [hcmdL, hintL]
    rfl
  have hsp : splitNL (L ++ ['\n']) = [L, []] := by
    unfold splitNL
    rw [show L ++ ['\n'] = L ++ '\n' :: ([] : PyStr) from rfl,
      splitBy_append_sep (by rfl) L [], splitBy_eq_single hnoNL]
    rfl
  have hadd : (add command interval st).2 = some (st.getD [] ++ L ++ ['\n']) := by
    rw [hLdef]
    unfold add cronStr
    cases st <;> rfl
  rw [hadd]
  rcases st with _ | c
  · show Cron.mk command interval ∈
      getAllLoop (splitNL ((none : CrontabState).getD [] ++ L ++ ['\n']))
    rw [show (none : CrontabState).getD [] ++ L ++ ['\n'] = L ++ ['\n'] from by simp, hsp,
      hloop]
    exact List.mem_singleton.mpr rfl
  · show Cron.mk command interval ∈
      getAllLoop (splitNL ((some c).getD [] ++ L ++ ['\n']))
    rcases hst with hc | hlast
    · rw [show (some c).getD [] ++ L ++ ['\n'] = L ++ ['\n'] from by simp [hc], hsp, hloop]
      exact List.mem_singleton.mpr rfl
    · obtain ⟨ys, hys⟩ := List.getLast?_eq_some_iff.mp hlast
      have hsp2 : splitNL ((some c).getD [] ++ L ++ ['\n']) = splitNL ys ++ [L, []] := by
        rw [show (some c).getD [] ++ L ++ ['\n'] = ys ++ '\n' :: (L ++ ['\n']) from by
          simp [hys], show splitNL (ys ++ '\n' :: (L ++ ['\n'])) =
            splitNL ys ++ splitNL (L ++ ['\n']) from
            splitBy_append_sep (by rfl) ys (L ++ ['\n']), hsp]
      rw [hsp2, getAllLoop_append, hloop]
      exact List.mem_append_right _ (List.mem_singleton.mpr rfl)

/-- C2 witness: a concrete whitespace-canonical pair over a newline-terminated
table, run through the amended round-trip property. -/
theorem add_get_all_contains_witness :
    is_valid_cron_format (String.toList "*/15 0 * * *") = true ∧
    joinWith ' ' (pySplit (String.toList "*/15 0 * * *")) = String.toList "*/15 0 * * *" ∧
    (String.toList "echo hi" ≠ []) ∧
    joinWith ' ' (pySplit (String.toList "echo hi")) = String.toList "echo hi" ∧
    wellTerminated (some (String.toList "# x\n")) ∧
    Cron.mk (String.toList "echo hi") (String.toList "*/15 0 * * *") ∈
      get_all (add (String.toList "echo hi") (String.toList "*/15 0 * * *")
        (some (String.toList "# x\n"))).2 :=
  ⟨by decide, by decide, by decide, by decide, Or.inr (by decide),
   add_get_all_contains (String.toList "echo hi") (String.toList "*/15 0 * * *")
     (some (String.toList "# x\n")) (by decide) (by decide) (by decide) (by decide)
     (Or.inr (by decide))⟩

end Ppycron
